import Mathlib

/-!
Verification development for the 14-segment display sketch `cc_FTSD.ino`.

The sketch is embedded shallowly: characters and EEPROM cells are `Nat`
values below 256, the 16-bit glyphs are `Nat` values below 65536, and the
C byte casts are explicit `% 256` operations.  The global mutable state of
the sketch (`message`, `mesgLen`, `j`, `loops`, the EEPROM contents) is a
record, and each pass through `loop()` is a function on that record.
-/

set_option maxRecDepth 100000

namespace FTSD

/-- Digit font table `segTransNum` (source lines 51-62). -/
def segTransNum : List Nat :=
  [0x08BF, 0x0086, 0x1099, 0x010F, 0x1126, 0x210D, 0x1239, 0x0881, 0x113F, 0x210F]

/-- Uppercase font table `segTransUpp` (source lines 63-90). -/
def segTransUpp : List Nat :=
  [0x0586, 0x054F, 0x0039, 0x044F, 0x1039, 0x1131, 0x013D, 0x1136, 0x0449,
   0x0851, 0x12B0, 0x0038, 0x20B6, 0x2236, 0x003F, 0x10B1, 0x023F, 0x12B1,
   0x112D, 0x0441, 0x003E, 0x2206, 0x0A36, 0x2A80, 0x2480, 0x0889]

/-- Lowercase font table `segTransLow` (source lines 91-118). -/
def segTransLow : List Nat :=
  [0x1A08, 0x1238, 0x1118, 0x090E, 0x0382, 0x1580, 0x210F, 0x1230, 0x0104,
   0x0850, 0x06C0, 0x0440, 0x1514, 0x1210, 0x111C, 0x3030, 0x2107, 0x1110,
   0x0308, 0x1540, 0x001C, 0x0204, 0x0A14, 0x2A80, 0x2880, 0x1808]

/-- The `switch` statement inside `translate` (source lines 139-173):
the 32 punctuation/symbol characters, every other value falling to the
`default : return 0` arm. -/
def punctGlyph (c : Nat) : Nat :=
  match c with
  | 33 => 0x0C81
  | 34 => 0x0042
  | 35 => 0x154E
  | 36 => 0x2649
  | 37 => 0x08A2
  | 38 => 0x3B91
  | 39 => 0x0002
  | 40 => 0x0280
  | 41 => 0x2800
  | 42 => 0x2EC0
  | 43 => 0x1540
  | 44 => 0x0800
  | 45 => 0x1100
  | 46 => 0x0400
  | 47 => 0x0880
  | 58 => 0x0440
  | 59 => 0x0840
  | 60 => 0x0888
  | 61 => 0x1108
  | 62 => 0x2208
  | 63 => 0x0503
  | 64 => 0x1A37
  | 91 => 0x0039
  | 92 => 0x2200
  | 93 => 0x000F
  | 94 => 0x0A00
  | 95 => 0x0008
  | 96 => 0x2000
  | 123 => 0x1280
  | 124 => 0x0006
  | 125 => 0x2900
  | 126 => 0x0914
  | _ => 0

/-- ASCII codes of the 32 characters handled by the `switch` in `translate`. -/
def punctChars : List Nat :=
  [33, 34, 35, 36, 37, 38, 39, 40, 41, 42, 43, 44, 45, 46, 47,
   58, 59, 60, 61, 62, 63, 64, 91, 92, 93, 94, 95, 96, 123, 124, 125, 126]

/-- `translate` (source lines 131-175): `isDigit` / `isLowerCase` /
`isUpperCase` are the ASCII ranges `'0'..'9'`, `'a'..'z'`, `'A'..'Z'`;
`DIGITDIFF = 0x30`, `LOWERCASEDIFF = 0x61`, `UPPERCASEDIFF = 0x41`. -/
def translate (c : Nat) : Nat :=
  if 48 ≤ c ∧ c ≤ 57 then segTransNum.getD (c - 48) 0
  else if 97 ≤ c ∧ c ≤ 122 then segTransLow.getD (c - 97) 0
  else if 65 ≤ c ∧ c ≤ 90 then segTransUpp.getD (c - 65) 0
  else punctGlyph c

/-- One digit transmission of the refresh loop (source lines 216-224):
`t = translate(message[(j + 3 - i) % mesgLen])`,
`high = (byte)(t >> 8)`, `low = (byte)(t & 0xFF)`, `high += (i << 6)`.
Arduino `String` indexing out of range yields 0, hence `List.getD _ _ 0`. -/
def digitOut (msg : List Nat) (len j i : Nat) : Nat × Nat :=
  let t := translate (msg.getD ((j + 3 - i) % len) 0)
  let high := (t >>> 8) % 256
  let low := (t &&& 0xFF) % 256
  (((high + (i <<< 6)) % 256), low)

/-- The four digit transmissions (high byte, low byte) of one full refresh
cycle, in scan order `i = 0, 1, 2, 3` (source lines 216-226). -/
def refreshCycle (msg : List Nat) (len j : Nat) : List (Nat × Nat) :=
  (List.range 4).map (digitOut msg len j)

/-- Recover the 14-segment glyph from a transmitted (high, low) byte pair:
drop the two digit-address bits of the high byte and reassemble. -/
def decodeGlyph (p : Nat × Nat) : Nat :=
  p.1 % 64 * 256 + p.2

lemma getD_lt_of_forall {l : List Nat} (b : Nat)
    (h : ∀ x ∈ l, x < b) (hb : 0 < b) : ∀ k, l.getD k 0 < b := by
  induction l with
  | nil => intro k; simpa using hb
  | cons a t ih =>
    intro k
    cases k with
    | zero => exact h a (by simp)
    | succ n =>
      rw [List.getD_cons_succ]
      exact ih (fun x hx => h x (by simp [hx])) n

lemma punctGlyph_lt (c : Nat) : punctGlyph c < 16384 := by
  unfold punctGlyph
  split <;> decide

/-- Every glyph the encoder can produce fits in the low 14 bits. -/
lemma translate_lt (c : Nat) : translate c < 16384 := by
  unfold translate
  split
  · exact getD_lt_of_forall 16384 (by decide) (by decide) _
  · split
    · exact getD_lt_of_forall 16384 (by decide) (by decide) _
    · split
      · exact getD_lt_of_forall 16384 (by decide) (by decide) _
      · exact punctGlyph_lt c

lemma translate_and255 (c : Nat) : translate c &&& 0xFF = translate c % 256 := by
  have h := Nat.and_pow_two_sub_one_eq_mod (translate c) 8
  norm_num at h
  exact h

lemma translate_shiftRight8 (c : Nat) : translate c >>> 8 = translate c / 256 := by
  have h := Nat.shiftRight_eq_div_pow (translate c) 8
  norm_num at h
  exact h

lemma translate_high_lt (c : Nat) : translate c >>> 8 < 64 := by
  rw [translate_shiftRight8]
  have := translate_lt c
  omega

/-- The EEPROM: a map from addresses to stored bytes. -/
def EEPROM : Type := Nat → Nat

/-- `EEPROM.write(a, v)`: the value is cast to a byte on write. -/
def eWrite (e : EEPROM) (a v : Nat) : EEPROM :=
  fun x => if x = a then v % 256 else e x

/-- The character-writing `for` loop of the replacement path (source lines
247-249): `for (i = 0; i < mesgLen; i++) EEPROM.write(i + 1, message.charAt(i));`,
unrolled over the list of characters still to be written, `a` being the
address the next character goes to. -/
def writeChars (e : EEPROM) (a : Nat) : List Nat → EEPROM
  | [] => e
  | c :: rest => writeChars (eWrite e a c) (a + 1) rest

/-- The full EEPROM update of a message replacement (source lines 246-250):
length byte at address 0, then the first `mesgLen` characters at addresses
1.., then a 0 terminator.  `mesgLen = message.length()` truncated to a byte. -/
def writeMessage (e : EEPROM) (msg : List Nat) : EEPROM :=
  let len := msg.length % 256
  eWrite (writeChars (eWrite e 0 len) 1 (msg.take len)) (len + 1) 0

/-- The boot-time `do`-`while` loop (source lines 198-202): starting at
address `i = 1`, read a byte, append it to the message, then continue while
`i <= temp && c != 0 && c != 0xFF`.  The loop body runs at most `temp`
times, so `temp` is enough fuel; the fuel argument only bounds the
iteration count and never cuts the loop short. -/
def eepromReadLoop (e : EEPROM) (temp : Nat) : Nat → Nat → List Nat
  | _, 0 => []
  | i, fuel + 1 =>
    let c := e i % 256
    c :: (if i + 1 ≤ temp ∧ c ≠ 0 ∧ c ≠ 255 then eepromReadLoop e temp (i + 1) fuel else [])

/-- The fallback message installed when the EEPROM holds no valid length
byte (source line 204). -/
def defaultMessage : List Nat :=
  "PLEASE SET THIS MESSAGE VIA A SERIAL LINK   ".data.map Char.toNat

/-- The message-loading part of `setup()` (source lines 195-205):
`temp = EEPROM.read(0)`; if `temp > 0 && temp <= 128` run the read loop,
otherwise install the fixed default message. -/
def setupMessage (e : EEPROM) : List Nat :=
  let temp := e 0 % 256
  if 0 < temp ∧ temp ≤ 128 then eepromReadLoop e temp 1 temp else defaultMessage

/-- The global mutable state of the sketch (source lines 177-181 and the
EEPROM contents). -/
@[ext] structure SysState where
  message : List Nat
  mesgLen : Nat
  j : Nat
  loops : Nat
  eeprom : EEPROM

/-- State after `setup()` (source lines 191-206): `loops = 0`, `j = 0`,
message loaded from the EEPROM, `mesgLen = message.length()` as a byte. -/
def initState (e : EEPROM) : SysState :=
  let msg := setupMessage e
  { message := msg, mesgLen := msg.length % 256, j := 0, loops := 0, eeprom := e }

/-- The frame-counter / window-offset update after the four digits have
been refreshed (source lines 228-233): `loops++` (a byte increment);
`if (loops == 10) { loops = 0; j++; j %= mesgLen; }`. -/
def frameAdvance (s : SysState) : SysState :=
  let loops := (s.loops + 1) % 256
  if loops = 10 then { s with loops := 0, j := ((s.j + 1) % 256) % s.mesgLen }
  else { s with loops := loops }

/-- The serial-input check of `loop()` (source lines 235-255).  `input` is
the burst of bytes the serial collaborator delivers during this pass;
`Serial.available() > 0` is `input ≠ []`, and then every available byte is
accumulated into a fresh message.  A non-empty accumulation replaces the
message, persists it and resets `j` and `loops`; the write-back of each
byte through `char` and `String` keeps only its low 8 bits. -/
def serialStep (s : SysState) (input : List Nat) : SysState :=
  if input = [] then s
  else
    let msg := input.map (· % 256)
    if 0 < msg.length then
      { message := msg, mesgLen := msg.length % 256, j := 0, loops := 0,
        eeprom := writeMessage s.eeprom msg }
    else { s with message := msg }

/-- One full pass through `loop()` (source lines 215-256): the four digit
transmissions computed from the current state, then the frame advance,
then the serial-input check. -/
def loopStep (s : SysState) (input : List Nat) : List (Nat × Nat) × SysState :=
  (refreshCycle s.message s.mesgLen s.j, serialStep (frameAdvance s) input)

/-- A pass through `loop()` in which no serial input arrives. -/
def stepNoInput (s : SysState) : SysState :=
  (loopStep s []).2

/-- States the sketch can actually be in: boot from an arbitrary EEPROM
byte image, then any number of `loop()` passes with arbitrary serial
bursts. -/
inductive Reachable : SysState → Prop
  | init (e : EEPROM) : (∀ a, e a < 256) → Reachable (initState e)
  | step (s : SysState) (input : List Nat) :
      Reachable s → Reachable (loopStep s input).2

lemma eWrite_ne (e : EEPROM) (a v x : Nat) (h : x ≠ a) : eWrite e a v x = e x :=
  if_neg h

lemma eWrite_eq (e : EEPROM) (a v : Nat) : eWrite e a v a = v % 256 :=
  if_pos rfl

/-- Where each byte of the character-writing loop lands: address `a + k`
holds character `k` of the list, everything else is untouched. -/
lemma writeChars_get (l : List Nat) :
    ∀ (e : EEPROM) (a x : Nat),
      writeChars e a l x =
        if a ≤ x ∧ x < a + l.length then l.getD (x - a) 0 % 256 else e x := by
  induction l with
  | nil =>
    intro e a x
    rw [writeChars, if_neg (by simp)]
  | cons c t ih =>
    intro e a x
    rw [writeChars, ih]
    by_cases h1 : a + 1 ≤ x ∧ x < a + 1 + t.length
    · rw [if_pos h1, if_pos (by simp only [List.length_cons]; omega)]
      have hx : x - a = (x - (a + 1)) + 1 := by omega
      rw [hx, List.getD_cons_succ]
    · rw [if_neg h1]
      by_cases h2 : x = a
      · subst h2
        rw [eWrite_eq, if_pos (by simp only [List.length_cons]; omega)]
        simp
      · rw [eWrite_ne _ _ _ _ h2,
          if_neg (by simp only [List.length_cons]; simp only [not_and, not_lt] at h1 ⊢; omega)]

lemma cons_range_mod (e : EEPROM) (n a : Nat) :
    e a % 256 :: (List.range n).map (fun k => e (a + 1 + k) % 256) =
      (List.range (n + 1)).map (fun k => e (a + k) % 256) := by
  rw [List.range_succ_eq_map, List.map_cons, List.map_map]
  congr 1
  refine List.map_congr_left fun x _ => ?_
  show e (a + 1 + x) % 256 = e (a + (x + 1)) % 256
  have h : a + 1 + x = a + (x + 1) := by omega
  rw [h]

/-- If no terminator byte occurs among the first `temp - i` cells, the read
loop starting at address `i` returns every remaining cell. -/
lemma readLoop_all (e : EEPROM) (temp : Nat) :
    ∀ fuel i, 1 ≤ fuel → i + fuel = temp + 1 →
      (∀ k, i ≤ k → k < temp → e k % 256 ≠ 0 ∧ e k % 256 ≠ 255) →
      eepromReadLoop e temp i fuel = (List.range fuel).map (fun k => e (i + k) % 256) := by
  intro fuel
  induction fuel with
  | zero => intro i h1; omega
  | succ f ih =>
    intro i h1 h2 h3
    rw [eepromReadLoop]
    rcases Nat.eq_zero_or_pos f with hf | hf
    · subst hf
      rw [if_neg (by omega)]
      have h1 : List.range 1 = [0] := rfl
      rw [h1]
      simp only [List.map_cons, List.map_nil, Nat.add_zero]
    · have hi : i < temp := by omega
      obtain ⟨hc0, hc255⟩ := h3 i (Nat.le_refl i) hi
      rw [if_pos ⟨by omega, hc0, hc255⟩,
        ih (i + 1) hf (by omega) (fun k hk1 hk2 => h3 k (by omega) hk2)]
      exact cons_range_mod e f i

/-- If the first terminator byte (0 or 255) sits at address `p ≤ temp`, the
read loop returns the cells up to and including address `p`. -/
lemma readLoop_trunc (e : EEPROM) (temp : Nat) :
    ∀ fuel i p, 1 ≤ i → i ≤ p → p ≤ temp → i + fuel = temp + 1 →
      (∀ k, i ≤ k → k < p → e k % 256 ≠ 0 ∧ e k % 256 ≠ 255) →
      (e p % 256 = 0 ∨ e p % 256 = 255) →
      eepromReadLoop e temp i fuel =
        (List.range (p + 1 - i)).map (fun k => e (i + k) % 256) := by
  intro fuel
  induction fuel with
  | zero => intro i p h1 h2 h3 h4; omega
  | succ f ih =>
    intro i p h1 h2 h3 h4 h5 h6
    rw [eepromReadLoop]
    rcases Nat.lt_or_ge i p with hip | hip
    · obtain ⟨hc0, hc255⟩ := h5 i (Nat.le_refl i) hip
      rw [if_pos ⟨by omega, hc0, hc255⟩,
        ih (i + 1) p (by omega) (by omega) h3 (by omega)
          (fun k hk1 hk2 => h5 k (by omega) hk2) h6]
      have hidx : p + 1 - (i + 1) = p - i := by omega
      have hshape : p + 1 - i = (p - i) + 1 := by omega
      rw [hidx, hshape]
      exact cons_range_mod e (p - i) i
    · have hip' : i = p := by omega
      subst hip'
      rw [if_neg (by rcases h6 with h | h <;> simp [h])]
      have hshape : i + 1 - i = 1 := by omega
      rw [hshape]
      have h1 : List.range 1 = [0] := rfl
      rw [h1]
      simp only [List.map_cons, List.map_nil, Nat.add_zero]

/-- Reading a list back from its own indices. -/
lemma getD_range_map (l : List Nat) :
    (List.range l.length).map (fun k => l.getD k 0) = l := by
  induction l with
  | nil => rfl
  | cons a t ih =>
    rw [List.length_cons, List.range_succ_eq_map, List.map_cons, List.map_map]
    refine congrArg₂ _ rfl ?_
    have hcomp : ((fun k => (a :: t).getD k 0) ∘ Nat.succ) = fun k => t.getD k 0 := by
      funext k
      simp
    rw [hcomp, ih]

/-- Adding the digit-select bits into the two free top bits of a 6-bit
high byte is the same as OR-ing them in. -/
lemma add_digit_bits_eq_or (a : Fin 64) (b : Fin 4) :
    (a : Nat) + (b : Nat) * 64 = (a : Nat) ||| ((b : Nat) <<< 6) := by
  revert a b
  decide

lemma refreshCycle_getD (msg : List Nat) (len j i : Nat) (hi : i < 4) :
    (refreshCycle msg len j).getD i (0, 0) = digitOut msg len j i := by
  interval_cases i <;> rfl

lemma stepNoInput_eq (s : SysState) : stepNoInput s = frameAdvance s := rfl

lemma iterate_loops (m : List Nat) (ml jj : Nat) (e : EEPROM) :
    ∀ k, k ≤ 9 → stepNoInput^[k] ⟨m, ml, jj, 0, e⟩ = ⟨m, ml, jj, k, e⟩ := by
  intro k
  induction k with
  | zero => intro _; rfl
  | succ n ih =>
    intro hk
    rw [Function.iterate_succ_apply', ih (by omega), stepNoInput_eq]
    have h256 : (n + 1) % 256 = n + 1 := Nat.mod_eq_of_lt (by omega)
    simp only [frameAdvance]
    rw [h256, if_neg (by omega)]

/-- C1: for every refresh cycle with window offset `j` and a message of
length at least 1, the digit at scan position `i < 4` transmits exactly the
glyph of the message character at index `(j + 3 - i) mod L`: decoding the
two transmitted bytes (dropping the two digit-address bits) recovers
`translate` of that character. -/
theorem scanout_digit_character (msg : List Nat) (j i : Nat)
    (hlen : 1 ≤ msg.length) (hi : i < 4) :
    decodeGlyph ((refreshCycle msg msg.length j).getD i (0, 0)) =
      translate (msg.getD ((j + 3 - i) % msg.length) 0) := by
  have ht := translate_lt (msg.getD ((j + 3 - i) % msg.length) 0)
  rw [refreshCycle_getD msg msg.length j i hi]
  simp only [digitOut, decodeGlyph]
  rw [translate_and255, translate_shiftRight8, Nat.shiftLeft_eq]
  have h26 : (2 : Nat) ^ 6 = 64 := by norm_num
  rw [h26]
  omega

/-- C1 witness: message "ABCD" (65, 66, 67, 68), window offset 0 — the four
scan positions show 'D', 'C', 'B', 'A'. -/
theorem scanout_digit_character_witness :
    decodeGlyph ((refreshCycle [65, 66, 67, 68] 4 0).getD 0 (0, 0)) = translate 68 ∧
    decodeGlyph ((refreshCycle [65, 66, 67, 68] 4 0).getD 1 (0, 0)) = translate 67 ∧
    decodeGlyph ((refreshCycle [65, 66, 67, 68] 4 0).getD 2 (0, 0)) = translate 66 ∧
    decodeGlyph ((refreshCycle [65, 66, 67, 68] 4 0).getD 3 (0, 0)) = translate 65 :=
  ⟨scanout_digit_character [65, 66, 67, 68] 0 0 (by decide) (by decide),
   scanout_digit_character [65, 66, 67, 68] 0 1 (by decide) (by decide),
   scanout_digit_character [65, 66, 67, 68] 0 2 (by decide) (by decide),
   scanout_digit_character [65, 66, 67, 68] 0 3 (by decide) (by decide)⟩

/-- C2: `translate` is total on bytes and classified first-match-wins:
digits through `segTransNum`, lowercase through `segTransLow`, uppercase
through `segTransUpp`, each of the 32 punctuation characters through the
`switch` table, and every remaining byte (control characters included)
yields the blank glyph 0. -/
theorem translate_total_classification :
    punctChars.length = 32 ∧
    (∀ c : Fin 256,
      (48 ≤ c.val ∧ c.val ≤ 57) → translate c.val = segTransNum.getD (c.val - 48) 0) ∧
    (∀ c : Fin 256,
      (97 ≤ c.val ∧ c.val ≤ 122) → translate c.val = segTransLow.getD (c.val - 97) 0) ∧
    (∀ c : Fin 256,
      (65 ≤ c.val ∧ c.val ≤ 90) → translate c.val = segTransUpp.getD (c.val - 65) 0) ∧
    (∀ c : Fin 256,
      c.val ∈ punctChars → translate c.val = punctGlyph c.val ∧ punctGlyph c.val ≠ 0) ∧
    (∀ c : Fin 256,
      ¬(48 ≤ c.val ∧ c.val ≤ 57) → ¬(97 ≤ c.val ∧ c.val ≤ 122) →
        ¬(65 ≤ c.val ∧ c.val ≤ 90) → c.val ∉ punctChars → translate c.val = 0) :=
  ⟨by decide, by decide, by decide, by decide, by decide, by decide⟩

/-- C2 witness: the control character 7 and the high byte 200 are outside
every table and render blank; the digit '7' (55) uses the digit table. -/
theorem translate_total_classification_witness :
    translate 7 = 0 ∧ translate 200 = 0 ∧ translate 55 = segTransNum.getD 7 0 :=
  ⟨translate_total_classification.2.2.2.2.2 ⟨7, by decide⟩
      (by decide) (by decide) (by decide) (by decide),
   translate_total_classification.2.2.2.2.2 ⟨200, by decide⟩
      (by decide) (by decide) (by decide) (by decide),
   translate_total_classification.2.1 ⟨55, by decide⟩ (by decide)⟩

/-- C3: every glyph has its top two bits clear (it is below 0x4000), so
adding `i << 6` to the high byte never carries into the segment bits: the
sum equals the bitwise OR, the two top bits of the transmitted high byte
decode back to `i`, the remaining six bits are exactly the glyph's high
bits, and the transmitted pair is `(high | (i << 6), glyph & 0xFF)`. -/
theorem digit_select_top_bits (c i : Nat) (hi : i < 4) :
    translate c < 16384 ∧
    ((translate c >>> 8) % 256 + (i <<< 6)) % 256 = (translate c >>> 8) ||| (i <<< 6) ∧
    ((translate c >>> 8) ||| (i <<< 6)) >>> 6 = i ∧
    ((translate c >>> 8) ||| (i <<< 6)) % 64 = translate c >>> 8 ∧
    (∀ msg len j, msg.getD ((j + 3 - i) % len) 0 = c →
      digitOut msg len j i = ((translate c >>> 8) ||| (i <<< 6), translate c &&& 0xFF)) := by
  have ht := translate_lt c
  have h8 := translate_high_lt c
  have hor : translate c >>> 8 + i * 64 = (translate c >>> 8) ||| (i <<< 6) :=
    add_digit_bits_eq_or ⟨translate c >>> 8, h8⟩ ⟨i, hi⟩
  have hsl : i <<< 6 = i * 64 := by rw [Nat.shiftLeft_eq]
  have hmod : (translate c >>> 8) % 256 = translate c >>> 8 := Nat.mod_eq_of_lt (by omega)
  have h26 : (2 : Nat) ^ 6 = 64 := by norm_num
  have hsum : ((translate c >>> 8) % 256 + i <<< 6) % 256 =
      (translate c >>> 8) ||| (i <<< 6) := by
    rw [hmod]
    conv_lhs => rw [hsl]
    rw [← hor]
    omega
  have hdiv : ((translate c >>> 8) ||| (i <<< 6)) >>> 6 = i := by
    rw [← hor, Nat.shiftRight_eq_div_pow, h26]
    omega
  have hm64 : ((translate c >>> 8) ||| (i <<< 6)) % 64 = translate c >>> 8 := by
    rw [← hor]
    omega
  refine ⟨ht, hsum, hdiv, hm64, ?_⟩
  intro msg len j hc
  simp only [digitOut]
  rw [hc]
  refine congrArg₂ Prod.mk hsum ?_
  rw [translate_and255]
  exact Nat.mod_eq_of_lt (Nat.mod_lt _ (by norm_num))

/-- C3 witness: character 'A' (65) at scan position 2. -/
theorem digit_select_top_bits_witness :
    translate 65 < 16384 ∧
    ((translate 65 >>> 8) % 256 + (2 <<< 6)) % 256 = (translate 65 >>> 8) ||| (2 <<< 6) ∧
    ((translate 65 >>> 8) ||| (2 <<< 6)) >>> 6 = 2 ∧
    ((translate 65 >>> 8) ||| (2 <<< 6)) % 64 = translate 65 >>> 8 :=
  ⟨(digit_select_top_bits 65 2 (by decide)).1,
   (digit_select_top_bits 65 2 (by decide)).2.1,
   (digit_select_top_bits 65 2 (by decide)).2.2.1,
   (digit_select_top_bits 65 2 (by decide)).2.2.2.1⟩

/-- C4: starting a refresh cycle with frame counter 0, the counter is `k`
after `k` cycles for `k ≤ 9` with the window offset unchanged, and after
the 10th cycle the counter is back to 0 and the offset has advanced by
exactly 1 modulo the message length. -/
theorem frame_counter_cadence (s : SysState) (h0 : s.loops = 0)
    (hj : s.j < s.mesgLen) (hm : s.mesgLen ≤ 255) :
    (∀ k, k ≤ 9 → (stepNoInput^[k] s).j = s.j ∧ (stepNoInput^[k] s).loops = k) ∧
    (stepNoInput^[10] s).j = (s.j + 1) % s.mesgLen ∧
    (stepNoInput^[10] s).loops = 0 := by
  obtain ⟨m, ml, jj, l, e⟩ := s
  have hl : l = 0 := h0
  subst hl
  have hj' : jj < ml := hj
  have hm' : ml ≤ 255 := hm
  constructor
  · intro k hk
    rw [iterate_loops m ml jj e k hk]
    exact ⟨rfl, rfl⟩
  · have h10 : stepNoInput^[10] (⟨m, ml, jj, 0, e⟩ : SysState) =
        frameAdvance ⟨m, ml, jj, 9, e⟩ := by
      rw [Function.iterate_succ_apply', iterate_loops m ml jj e 9 (by omega), stepNoInput_eq]
    have hfa : frameAdvance (⟨m, ml, jj, 9, e⟩ : SysState) =
        ⟨m, ml, ((jj + 1) % 256) % ml, 0, e⟩ := by
      simp only [frameAdvance]
      rw [if_pos (by norm_num)]
    have hj1 : (jj + 1) % 256 = jj + 1 := Nat.mod_eq_of_lt (by omega)
    rw [h10, hfa]
    exact ⟨by show ((jj + 1) % 256) % ml = (jj + 1) % ml; rw [hj1], rfl⟩

/-- C4 witness: a two-character message with offset 0; after 10 quiet
cycles the offset is 1 and the counter is back at 0. -/
theorem frame_counter_cadence_witness :
    (stepNoInput^[10] (⟨[72, 73], 2, 0, 0, fun _ => 0⟩ : SysState)).j = 1 ∧
    (stepNoInput^[10] (⟨[72, 73], 2, 0, 0, fun _ => 0⟩ : SysState)).loops = 0 :=
  (frame_counter_cadence ⟨[72, 73], 2, 0, 0, fun _ => 0⟩ rfl (by decide) (by decide)).2

/-- C5 counterexample: the two-character message `[0, 65]` (a NUL byte
followed by 'A') is stored faithfully, but re-initialization stops at the
NUL byte and yields `[0]`, not the original message. -/
theorem eeprom_roundtrip_counterexample :
    (initState (writeMessage (fun _ => 7) [0, 65])).message = [0] ∧
    (initState (writeMessage (fun _ => 7) [0, 65])).message ≠ [0, 65] := by
  exact ⟨by decide, by decide⟩

/-- C5 (amended): writing a message of length 1..128 whose characters are
bytes, none of which — except possibly the last — is 0x00 or 0xFF, and
re-initializing yields exactly that message; a stored length byte of 0 or
255 makes initialization yield the default fallback message instead. -/
theorem eeprom_roundtrip (M : List Nat) (e : EEPROM)
    (h1 : 1 ≤ M.length) (h2 : M.length ≤ 128)
    (hb : ∀ c ∈ M, c < 256)
    (hint : ∀ k, k + 1 < M.length → M.getD k 0 ≠ 0 ∧ M.getD k 0 ≠ 255) :
    (initState (writeMessage e M)).message = M ∧
    (initState (eWrite e 0 0)).message = defaultMessage ∧
    (initState (eWrite e 0 255)).message = defaultMessage := by
  refine ⟨?_, ?_, ?_⟩
  · have hl : M.length % 256 = M.length := Nat.mod_eq_of_lt (by omega)
    have we : writeMessage e M =
        eWrite (writeChars (eWrite e 0 M.length) 1 M) (M.length + 1) 0 := by
      simp only [writeMessage]
      rw [hl, List.take_length]
    show setupMessage (writeMessage e M) = M
    rw [we]
    have hE0 : eWrite (writeChars (eWrite e 0 M.length) 1 M) (M.length + 1) 0 0 % 256 =
        M.length := by
      rw [eWrite_ne _ _ _ _ (by omega), writeChars_get, if_neg (by omega), eWrite_eq]
      omega
    have hEk : ∀ k, 1 ≤ k → k ≤ M.length →
        eWrite (writeChars (eWrite e 0 M.length) 1 M) (M.length + 1) 0 k % 256 =
          M.getD (k - 1) 0 := by
      intro k hk1 hk2
      rw [eWrite_ne _ _ _ _ (by omega), writeChars_get, if_pos (by omega)]
      have hv := getD_lt_of_forall 256 hb (by norm_num) (k - 1)
      omega
    simp only [setupMessage]
    rw [hE0, if_pos ⟨by omega, by omega⟩,
      readLoop_all _ M.length M.length 1 (by omega) (by omega)
        (fun k hk1 hk2 => by
          rw [hEk k hk1 (by omega)]
          exact hint (k - 1) (by omega))]
    have hmap : (List.range M.length).map
        (fun k => eWrite (writeChars (eWrite e 0 M.length) 1 M) (M.length + 1) 0 (1 + k) % 256) =
        (List.range M.length).map (fun k => M.getD k 0) := by
      refine List.map_congr_left fun k hk => ?_
      have hkl : k < M.length := List.mem_range.mp hk
      rw [hEk (1 + k) (by omega) (by omega)]
      congr 1
      omega
    rw [hmap, getD_range_map]
  · show setupMessage (eWrite e 0 0) = defaultMessage
    simp only [setupMessage]
    rw [eWrite_eq, if_neg (by norm_num)]
  · show setupMessage (eWrite e 0 255) = defaultMessage
    simp only [setupMessage]
    rw [eWrite_eq, if_neg (by norm_num)]

/-- C5 witness: the message "HI" (72, 73) round-trips, and length bytes 0
and 255 fall back to the default message. -/
theorem eeprom_roundtrip_witness :
    (initState (writeMessage (fun _ => 7) [72, 73])).message = [72, 73] ∧
    (initState (eWrite (fun _ => 7) 0 0)).message = defaultMessage ∧
    (initState (eWrite (fun _ => 7) 0 255)).message = defaultMessage :=
  eeprom_roundtrip [72, 73] (fun _ => 7) (by decide) (by decide) (by decide)
    (fun k hk => by
      simp only [List.length_cons, List.length_nil] at hk
      have hk0 : k = 0 := by omega
      subst hk0
      exact ⟨by decide, by decide⟩)

/-- C6 counterexample: length byte 5 with a NUL byte at address 2 — the
boot loop does not fall back to the default message; it stops early and
keeps the truncated prefix `[65, 0]` (terminator included). -/
theorem setup_truncates_counterexample :
    setupMessage (fun a => if a = 0 then 5 else if a = 1 then 65 else if a = 2 then 0 else 66)
      = [65, 0] ∧
    setupMessage (fun a => if a = 0 then 5 else if a = 1 then 65 else if a = 2 then 0 else 66)
      ≠ defaultMessage := by
  exact ⟨by decide, by decide⟩

/-- C6 (amended): a stored length byte outside 1..128 makes initialization
fall back to the default message; a 0x00 or 0xFF byte encountered before
the stored length is exhausted does not — it stops the read early and the
loaded message is the stored prefix up to and including that byte. -/
theorem setup_fallback_and_truncation (e : EEPROM) :
    (¬(0 < e 0 % 256 ∧ e 0 % 256 ≤ 128) → setupMessage e = defaultMessage) ∧
    (∀ p, 0 < e 0 % 256 → e 0 % 256 ≤ 128 → 1 ≤ p → p ≤ e 0 % 256 →
      (∀ k, 1 ≤ k → k < p → e k % 256 ≠ 0 ∧ e k % 256 ≠ 255) →
      (e p % 256 = 0 ∨ e p % 256 = 255) →
      setupMessage e = (List.range p).map (fun k => e (k + 1) % 256)) := by
  constructor
  · intro h
    simp only [setupMessage]
    rw [if_neg h]
  · intro p h1 h2 hp1 hp2 hmid hterm
    simp only [setupMessage]
    rw [if_pos ⟨h1, h2⟩,
      readLoop_trunc e (e 0 % 256) (e 0 % 256) 1 p (by omega) hp1 hp2 (by omega) hmid hterm]
    have hsh : p + 1 - 1 = p := by omega
    rw [hsh]
    refine List.map_congr_left fun x _ => ?_
    have h : 1 + x = x + 1 := by omega
    rw [h]

/-- C6 witness: length byte 3 with 66 at address 1 and a NUL at address 2
loads the truncated message `[66, 0]`; length byte 200 loads the default. -/
theorem setup_fallback_and_truncation_witness :
    setupMessage (fun a => if a = 0 then 3 else if a = 1 then 66 else if a = 2 then 0 else 99)
      = [66, 0] ∧
    setupMessage (fun _ => 200) = defaultMessage := by
  constructor
  · have h := (setup_fallback_and_truncation
        (fun a => if a = 0 then 3 else if a = 1 then 66 else if a = 2 then 0 else 99)).2
        2 (by decide) (by decide) (by decide) (by decide)
        (fun k hk1 hk2 => by
          have hk : k = 1 := by omega
          subst hk
          exact ⟨by decide, by decide⟩)
        (by decide)
    rw [h]
    decide
  · exact (setup_fallback_and_truncation (fun _ => 200)).1 (by decide)

/-- C7: whenever a non-empty serial burst replaces the message buffer, the
window offset and the frame counter are both 0 at the end of the `loop()`
pass, before the next refresh cycle begins, and the message buffer holds
exactly the received bytes. -/
theorem replacement_resets_scan (s : SysState) (input : List Nat) (h : input ≠ []) :
    (loopStep s input).2.j = 0 ∧ (loopStep s input).2.loops = 0 ∧
    (loopStep s input).2.message = input.map (· % 256) := by
  simp only [loopStep, serialStep]
  rw [if_neg h]
  have hlen : 0 < (input.map (· % 256)).length := by
    rw [List.length_map]
    cases input with
    | nil => exact absurd rfl h
    | cons a t => simp
  rw [if_pos hlen]
  exact ⟨rfl, rfl, rfl⟩

/-- C7 witness: one loop pass with a one-byte burst resets the scan state
and installs the byte as the new message. -/
theorem replacement_resets_scan_witness :
    (loopStep (⟨[72], 1, 0, 5, fun _ => 0⟩ : SysState) [75]).2.j = 0 ∧
    (loopStep (⟨[72], 1, 0, 5, fun _ => 0⟩ : SysState) [75]).2.loops = 0 ∧
    (loopStep (⟨[72], 1, 0, 5, fun _ => 0⟩ : SysState) [75]).2.message = [75] :=
  replacement_resets_scan ⟨[72], 1, 0, 5, fun _ => 0⟩ [75] (by decide)

/-- C8: after booting from an all-zero EEPROM (which installs the 44
character default message), a single serial burst of 256 bytes drives the
sketch into a reachable state whose `mesgLen` is 0 — the byte truncation
of `mesgLen = message.length()` wraps 256 to 0, so the next refresh cycle
computes `(j + 3 - i) % 0`. -/
theorem mesgLen_zero_reachable :
    Reachable ((loopStep (initState (fun _ => 0)) (List.replicate 256 65)).2) ∧
    ((loopStep (initState (fun _ => 0)) (List.replicate 256 65)).2).mesgLen = 0 ∧
    ((loopStep (initState (fun _ => 0)) (List.replicate 256 65)).2).message.length = 256 :=
  ⟨Reachable.step _ _ (Reachable.init (fun _ => 0) (fun _ => by norm_num)),
   by decide, by decide⟩

/-- C9: after booting from an all-zero EEPROM, a single serial burst of
129 bytes is accepted wholesale: the active message has 129 characters and
the length byte written back to the persistent store is 129, outside the
1..128 range the sketch itself announces as the limit. -/
theorem overlong_message_reachable :
    Reachable ((loopStep (initState (fun _ => 0)) (List.replicate 129 65)).2) ∧
    ((loopStep (initState (fun _ => 0)) (List.replicate 129 65)).2).message.length = 129 ∧
    ((loopStep (initState (fun _ => 0)) (List.replicate 129 65)).2).eeprom 0 = 129 :=
  ⟨Reachable.step _ _ (Reachable.init (fun _ => 0) (fun _ => by norm_num)),
   by decide, by decide⟩

/-- C10: a pass of `loop()` during which no serial input arrives leaves the
serial-handling state untouched: the serial step is the identity, and the
whole pass preserves the message buffer, the stored length and the EEPROM
contents. -/
theorem empty_input_ignored (s : SysState) :
    serialStep s [] = s ∧
    (loopStep s []).2.message = s.message ∧
    (loopStep s []).2.mesgLen = s.mesgLen ∧
    (loopStep s []).2.eeprom = s.eeprom := by
  have hfa : ∀ t : SysState, (frameAdvance t).message = t.message ∧
      (frameAdvance t).mesgLen = t.mesgLen ∧ (frameAdvance t).eeprom = t.eeprom := by
    intro t
    simp only [frameAdvance]
    split <;> exact ⟨rfl, rfl, rfl⟩
  exact ⟨rfl, (hfa s).1, (hfa s).2.1, (hfa s).2.2⟩

/-- C10 witness: the empty burst leaves a concrete state untouched. -/
theorem empty_input_ignored_witness :
    serialStep (⟨[72], 1, 0, 0, fun _ => 0⟩ : SysState) [] =
      (⟨[72], 1, 0, 0, fun _ => 0⟩ : SysState) :=
  (empty_input_ignored ⟨[72], 1, 0, 0, fun _ => 0⟩).1

end FTSD
